import Mathlib

/-!
Verification of the Shamir secret-sharing core of paperback
(`pkg/paperback-core/src/shamir/shamir.rs`).

The file embeds the code of `shamir.rs` shallowly:

* `Shard` and `Dealer` are the structures of the source, generic over the
  coefficient field `F`.  The source instantiates `F` with `GfElem`, the
  element type of GF(2^32) defined in `shamir/gf.rs`; that file is not part
  of the sources under verification, so the field is kept abstract (the spec
  states the core only requires that the carrier forms a field) and the
  byte conversion of elements is modelled from the spec as a `GfBytes`
  record together with the laws the spec asserts for it (`GfBytes.Lawful`).
* Fatal aborts (`assert!`) are modelled by `Option`: a run that would abort
  returns `none`.
* The OS random source is modelled by explicit streams of field elements
  (`coeffs` for polynomial coefficients, `rng` plus a fuel bound for the
  rejection-sampling loop of `next_shard`).
* The wire codec of a shard operates on the `u32` representation of field
  elements (`x.inner()`); it is embedded on `Shard ℕ`, naturals standing
  for the primitive representation.  The unsigned LEB128 varint codec of
  the `unsigned-varint` crate and `nom_helpers` is modelled from the spec.
-/

namespace Paperback

/-- A byte, as in the Rust `u8`. -/
abbrev Byte := Fin 256

/-! ## Varint wire primitives

Modelled from the spec: the `unsigned_varint::encode` crate functions and
`crate::nom_helpers` parsers used by `shamir.rs` are not among the sources;
the spec fixes them to be standard unsigned LEB128 (7-bit groups,
little-endian, MSB as continuation flag). -/

/-- Modelled from the spec: unsigned LEB128 encoding, fuel-indexed so that the
recursion is structural.  `varintEncode` instantiates the fuel with a
sufficient bound. -/
def varintEncodeF : ℕ → ℕ → List Byte
  | 0, n => [⟨n % 128, by omega⟩]
  | fuel + 1, n =>
    if n < 128 then [⟨n % 128, by omega⟩]
    else ⟨128 + n % 128, by omega⟩ :: varintEncodeF fuel (n / 128)

/-- Modelled from the spec: unsigned LEB128 encoding of a natural number. -/
def varintEncode (n : ℕ) : List Byte := varintEncodeF n n

/-- Modelled from the spec: unsigned LEB128 decoding; returns the value and
the unconsumed rest, or `none` on truncated input. -/
def varintDecode : List Byte → Option (ℕ × List Byte)
  | [] => none
  | b :: rest =>
    if (b : ℕ) < 128 then some ((b : ℕ), rest)
    else
      match varintDecode rest with
      | none => none
      | some (m, r) => some ((b : ℕ) - 128 + 128 * m, r)

/-- Modelled from the spec: decode exactly `n` varints (the `many_m_n` parser
of `from_wire_partial`). -/
def varintDecodeN : ℕ → List Byte → Option (List ℕ × List Byte)
  | 0, input => some ([], input)
  | n + 1, input =>
    match varintDecode input with
    | none => none
    | some (v, rest) =>
      match varintDecodeN n rest with
      | none => none
      | some (vs, rest') => some (v :: vs, rest')

/-! ## The shard data type and its wire codec (`Shard`, `ToWire`, `FromWire`) -/

/-- The `Shard` struct of `shamir.rs`: one evaluation point `x`, the values
`ys` of every chunk polynomial at `x`, the original secret byte length and
the recovery threshold. -/
structure Shard (F : Type) where
  x : F
  ys : List F
  secret_len : ℕ
  threshold : ℕ
  deriving DecidableEq

/-- The shard invariants of the data model (spec §3), on the primitive
`u32` representation: non-zero bounded `x`, bounded `ys` entries and
threshold, threshold at least one, and `|ys| = ceil(secret_len / 4)`. -/
def ShardValid (s : Shard ℕ) : Prop :=
  s.x ≠ 0 ∧ s.x < 2 ^ 32 ∧ (∀ y ∈ s.ys, y < 2 ^ 32) ∧
    1 ≤ s.threshold ∧ s.threshold < 2 ^ 32 ∧ s.ys.length = (s.secret_len + 3) / 4

instance (s : Shard ℕ) : Decidable (ShardValid s) := by
  unfold ShardValid; infer_instance

/-- `ToWire for Shard`: the varints of `x.inner()`, the length-prefixed
varints of the `ys`, the varint of `threshold` and of `secret_len`,
concatenated in this order. -/
def Shard.to_wire (s : Shard ℕ) : List Byte :=
  varintEncode s.x ++
    (varintEncode s.ys.length ++ s.ys.flatMap varintEncode) ++
    varintEncode s.threshold ++
    varintEncode s.secret_len

/-- `FromWire for Shard`, `from_wire_partial`: parse the fields in wire
order and return the parsed shard together with the unconsumed input. -/
def Shard.from_wire_partial (input : List Byte) : Option (Shard ℕ × List Byte) :=
  match varintDecode input with
  | none => none
  | some (x, input) =>
    match varintDecode input with
    | none => none
    | some (ys_length, input) =>
      match varintDecodeN ys_length input with
      | none => none
      | some (ys, input) =>
        match varintDecode input with
        | none => none
        | some (threshold, input) =>
          match varintDecode input with
          | none => none
          | some (secret_len, input) =>
            some (⟨x, ys, secret_len, threshold⟩, input)

/-- Modelled from the spec: the `FromWire::from_wire` provided method (its
definition lives in `v0/wire.rs`, outside the verified sources) parses via
`from_wire_partial` and additionally requires the unconsumed tail to be
empty. -/
def Shard.from_wire (input : List Byte) : Option (Shard ℕ) :=
  match Shard.from_wire_partial input with
  | some (s, []) => some s
  | _ => none

/-! ## Byte conversion of field elements

`Dealer::new` chunks the secret with `secret.chunks(4)` and maps
`GfElem::from_bytes` over the chunks; `Dealer::secret` and `recover_secret`
serialize constants back with `GfElem::to_bytes`.  `GfElem` lives in
`shamir/gf.rs`, outside the verified sources, so the conversions are modelled
from the spec. -/

/-- `secret.chunks(4)`: consecutive chunks of four bytes, the final chunk
possibly shorter, never empty. -/
def chunksOf4 {β : Type} : List β → List (List β)
  | [] => []
  | [a] => [[a]]
  | [a, b] => [[a, b]]
  | [a, b, c] => [[a, b, c]]
  | a :: b :: c :: d :: rest => [a, b, c, d] :: chunksOf4 rest

/-- Modelled from the spec: the byte conversions of `GfElem` (`from_bytes`
and `to_bytes` in `shamir/gf.rs`, not among the sources). -/
structure GfBytes (F : Type) where
  from_bytes : List Byte → F
  to_bytes : F → List Byte

/-- Modelled from the spec, §4.1: `to_bytes` emits exactly 4 bytes,
`from_bytes` zero-pads short inputs on the right, and the two conversions
are mutually inverse on 4-byte inputs. -/
structure GfBytes.Lawful {F : Type} (B : GfBytes F) : Prop where
  length_to_bytes : ∀ a, (B.to_bytes a).length = 4
  to_bytes_from_bytes : ∀ bs : List Byte, bs.length = 4 → B.to_bytes (B.from_bytes bs) = bs
  from_bytes_pad : ∀ bs : List Byte, bs.length ≤ 4 →
    B.from_bytes bs = B.from_bytes (bs ++ List.replicate (4 - bs.length) 0)

/-! ## Polynomials over the field (`GfPolynomial`) -/

/-- A polynomial over `F` as its list of coefficients, constant first:
`[c₀, c₁, …]` denotes `Σ cᵢ·xⁱ`. -/
abbrev GfPoly (F : Type) := List F

/-- `GfPolynomial::evaluate` by Horner's rule. -/
def GfPoly.evaluate {F : Type} [Field F] (p : GfPoly F) (x : F) : F :=
  p.foldr (fun c acc => c + x * acc) 0

/-- `GfPolynomial::constant`: the coefficient `c₀`. -/
def GfPoly.constant {F : Type} [Field F] (p : GfPoly F) : F := p.headD 0

/-- Modelled from the spec: `GfPolynomial::new_rand(k, rng)` draws the
`k + 1` coefficients of a degree-`k` polynomial from the random stream. -/
def GfPoly.new_rand {F : Type} (k : ℕ) (rng : ℕ → F) : GfPoly F :=
  (List.range (k + 1)).map rng

/-- Coefficient-wise sum of two coefficient lists (missing entries count 0). -/
def polyAdd {F : Type} [Field F] : GfPoly F → GfPoly F → GfPoly F
  | [], q => q
  | p, [] => p
  | a :: p, b :: q => (a + b) :: polyAdd p q

/-- Multiplication of a coefficient list by a scalar. -/
def polyScale {F : Type} [Field F] (c : F) (p : GfPoly F) : GfPoly F :=
  p.map (fun a => c * a)

/-- Product of two coefficient lists. -/
def polyMul {F : Type} [Field F] : GfPoly F → GfPoly F → GfPoly F
  | [], _ => []
  | a :: p, q => polyAdd (polyScale a q) (0 :: polyMul p q)

/-- The monic node polynomial `Π (X - xⱼ)` over a list of nodes, as a
coefficient list. -/
def lagNodes {F : Type} [Field F] (xs : List F) : GfPoly F :=
  xs.foldr (fun c acc => polyMul [-c, 1] acc) [1]

/-- All indices of `pts` except `i`. -/
def lagOthers {F : Type} (pts : List (F × F)) (i : Fin pts.length) : List (Fin pts.length) :=
  (List.finRange pts.length).filter (fun j => j ≠ i)

/-- Value at `X = 0` of the `i`-th Lagrange basis polynomial
`Π_{j ≠ i} (X - xⱼ) / (xᵢ - xⱼ)` of the nodes of `pts`. -/
def lagBasisAt0 {F : Type} [Field F] (pts : List (F × F)) (i : Fin pts.length) : F :=
  ((lagOthers pts i).map
    (fun j => (0 - (pts.get j).1) / ((pts.get i).1 - (pts.get j).1))).prod

/-- Modelled from the spec: the value of the Lagrange interpolant of `pts`
at `X = 0`, `Σᵢ yᵢ · Π_{j ≠ i} (0 - xⱼ)/(xᵢ - xⱼ)`. -/
def lagConstFormula {F : Type} [Field F] (pts : List (F × F)) : F :=
  ((List.finRange pts.length).map (fun i => (pts.get i).2 * lagBasisAt0 pts i)).sum

/-- The scalar `Π_{j ≠ i} (xᵢ - xⱼ)⁻¹` of the `i`-th Lagrange basis. -/
def lagCoeff {F : Type} [Field F] (pts : List (F × F)) (i : Fin pts.length) : F :=
  ((lagOthers pts i).map (fun j => ((pts.get i).1 - (pts.get j).1)⁻¹)).prod

/-- The `i`-th summand `yᵢ · Π_{j ≠ i} (X - xⱼ)/(xᵢ - xⱼ)` of the Lagrange
interpolant, as a coefficient list. -/
def lagShare {F : Type} [Field F] (pts : List (F × F)) (i : Fin pts.length) : GfPoly F :=
  polyScale ((pts.get i).2 * lagCoeff pts i)
    (lagNodes ((lagOthers pts i).map (fun j => (pts.get j).1)))

/-- Modelled from the spec: the full Lagrange interpolant of `pts` as a
coefficient list, `Σᵢ yᵢ · Π_{j ≠ i} (X - xⱼ)/(xᵢ - xⱼ)`. -/
def lagPolyFormula {F : Type} [Field F] (pts : List (F × F)) : GfPoly F :=
  ((List.finRange pts.length).map (fun i => lagShare pts i)).foldr polyAdd []

/-- Modelled from the spec: `GfPolynomial::lagrange_constant(degree, points)`
returns the interpolant's value at 0 and is a programmer error (a fatal
abort, modelled as `none`) when the point count is not `degree + 1` or two
x-values collide. -/
def GfPoly.lagrange_constant {F : Type} [Field F] [DecidableEq F] (degree : ℕ)
    (pts : List (F × F)) : Option F :=
  if pts.length = degree + 1 ∧ (pts.map Prod.fst).Nodup then
    some (lagConstFormula pts)
  else none

/-- Modelled from the spec: `GfPolynomial::lagrange(degree, points)` returns
the full interpolant of the stated degree, failing fatally (modelled as
`none`) when the point count is not `degree + 1` or two x-values collide. -/
def GfPoly.lagrange {F : Type} [Field F] [DecidableEq F] (degree : ℕ)
    (pts : List (F × F)) : Option (GfPoly F) :=
  if pts.length = degree + 1 ∧ (pts.map Prod.fst).Nodup then
    some (lagPolyFormula pts)
  else none

/-! ## The dealer -/

/-- The `Dealer` struct of `shamir.rs`: one polynomial per 4-byte chunk of
the secret, the secret byte length and the threshold. -/
structure Dealer (F : Type) where
  polys : List (GfPoly F)
  secret_len : ℕ
  threshold : ℕ
  deriving DecidableEq

/-- `Dealer::new(threshold, secret)`: fatal (`none`) when `threshold = 0`;
otherwise chunk the secret into 4-byte groups, build one random polynomial
of degree `threshold - 1` per chunk and overwrite its constant with the
chunk's field value.  `coeffs j` is the random stream used for chunk `j`. -/
def Dealer.new {F : Type} [Field F] (threshold : ℕ) (secret : List Byte)
    (B : GfBytes F) (coeffs : ℕ → ℕ → F) : Option (Dealer F) :=
  if threshold = 0 then none
  else
    some
      { polys := (chunksOf4 secret).enum.map
          (fun jc => (GfPoly.new_rand (threshold - 1) (coeffs jc.1)).set 0 (B.from_bytes jc.2))
        secret_len := secret.length
        threshold := threshold }

/-- `Dealer::secret`: concatenate the serialized constants of the
polynomials and truncate to `secret_len`. -/
def Dealer.secret {F : Type} [Field F] (d : Dealer F) (B : GfBytes F) : List Byte :=
  ((d.polys.map GfPoly.constant).flatMap B.to_bytes).take d.secret_len

/-- The rejection-sampling loop of `next_shard`: first non-zero element of
the random stream, with a fuel bound making the recursion structural (the
Rust loop may in principle spin forever; running out of fuel is `none`). -/
def findNonZero {F : Type} [Field F] [DecidableEq F] (rng : ℕ → F) : ℕ → Option F
  | 0 => none
  | fuel + 1 => if rng 0 ≠ 0 then some (rng 0) else findNonZero (fun n => rng (n + 1)) fuel

/-- `Dealer::next_shard`: sample a non-zero `x`, evaluate every polynomial at
`x`, and assert (fatal, modelled as `none`) that when the threshold is not 1
no value equals the polynomial's constant. -/
def Dealer.next_shard {F : Type} [Field F] [DecidableEq F] (d : Dealer F)
    (rng : ℕ → F) (fuel : ℕ) : Option (Shard F) :=
  match findNonZero rng fuel with
  | none => none
  | some x =>
    if ∀ p ∈ d.polys, d.threshold = 1 ∨ GfPoly.evaluate p x ≠ GfPoly.constant p then
      some
        { x := x
          ys := d.polys.map (fun p => GfPoly.evaluate p x)
          secret_len := d.secret_len
          threshold := d.threshold }
    else none

/-- The shared validation prologue of `Dealer::recover` and
`recover_secret`: at least one shard, all shards agree with `shards[0]` on
`threshold`, `|ys|` and `secret_len`, and the shard count equals the
threshold.  On success it returns `(threshold, polys_len, secret_len)`;
any violated assertion is fatal (`none`). -/
def checkShards {F : Type} : List (Shard F) → Option (ℕ × ℕ × ℕ)
  | [] => none
  | s0 :: rest =>
    if (∀ s ∈ s0 :: rest, s.threshold = s0.threshold ∧ s.ys.length = s0.ys.length ∧
          s.secret_len = s0.secret_len) ∧ (s0 :: rest).length = s0.threshold then
      some (s0.threshold, s0.ys.length, s0.secret_len)
    else none

/-- The interpolation points `{(s.x, s.ys[i])}` collected for polynomial
index `i` (the out-of-range default is immaterial: callers have checked
`i < |ys|`). -/
def shardPoints {F : Type} [Field F] (shards : List (Shard F)) (i : ℕ) : List (F × F) :=
  shards.map (fun s => (s.x, s.ys.getD i 0))

/-- Collect the results of a fallible map: `some` of all results, or `none`
as soon as one application fails (one fatal abort inside the Rust `.map()`
aborts the whole call). -/
def collectSome {α β : Type} (f : α → Option β) : List α → Option (List β)
  | [] => some []
  | a :: l =>
    match f a, collectSome f l with
    | some b, some bs => some (b :: bs)
    | _, _ => none

/-- `Dealer::recover`: validate the shards, then reconstruct every chunk
polynomial in full via `lagrange`. -/
def Dealer.recover {F : Type} [Field F] [DecidableEq F] (shards : List (Shard F)) :
    Option (Dealer F) :=
  match checkShards shards with
  | none => none
  | some (threshold, polys_len, secret_len) =>
    match collectSome
        (fun i => GfPoly.lagrange (threshold - 1) (shardPoints shards i))
        (List.range polys_len) with
    | none => none
    | some polys => some { polys := polys, secret_len := secret_len, threshold := threshold }

/-- The lazy iterator chain
`(0..polys_len).map(f).flat_map(to_bytes).take(need).collect()` of
`recover_secret`: an upstream index is pulled (and its fallible `f`, the
interpolation, actually run) only while fewer than `need` bytes have been
produced; `take(0)` pulls nothing, and an exhausted upstream ends the
collection early.  A fatal abort inside a pulled `f` aborts the call. -/
def takeCollect {F : Type} (B : GfBytes F) (f : ℕ → Option F) :
    List ℕ → ℕ → Option (List Byte)
  | _, 0 => some []
  | [], _ + 1 => some []
  | i :: rest, need + 1 =>
    match f i with
    | none => none
    | some c =>
      if need + 1 ≤ (B.to_bytes c).length then some ((B.to_bytes c).take (need + 1))
      else
        match takeCollect B f rest (need + 1 - (B.to_bytes c).length) with
        | none => none
        | some tail => some ((B.to_bytes c) ++ tail)

/-- `recover_secret`: validate the shards, then reconstruct constants via
`lagrange_constant` inside the source's lazy
`.map(..).flat_map(to_bytes).take(secret_len).collect()` chain: only the
indices actually pulled to produce `secret_len` bytes are interpolated. -/
def recover_secret {F : Type} [Field F] [DecidableEq F] (B : GfBytes F)
    (shards : List (Shard F)) : Option (List Byte) :=
  match checkShards shards with
  | none => none
  | some (threshold, polys_len, secret_len) =>
    takeCollect B
      (fun i => GfPoly.lagrange_constant (threshold - 1) (shardPoints shards i))
      (List.range polys_len) secret_len

/-- The caller-contract violation rejected by the validation prologue of the
two recovery functions: empty input, a shard inconsistent with `shards[0]`,
or a shard count different from the threshold of `shards[0]`. -/
def RecoverViolation {F : Type} (shards : List (Shard F)) : Prop :=
  shards = [] ∨
    ∃ s0, shards.head? = some s0 ∧
      ((∃ s ∈ shards, s.threshold ≠ s0.threshold ∨ s.ys.length ≠ s0.ys.length ∨
          s.secret_len ≠ s0.secret_len) ∨
        shards.length ≠ s0.threshold)

/-! ## Proof-side bridge to `Polynomial` -/

/-- The polynomial denoted by a coefficient list. -/
noncomputable def toPoly {F : Type} [Field F] (p : GfPoly F) : Polynomial F :=
  p.foldr (fun c q => Polynomial.C c + Polynomial.X * q) 0

/-! ## Concrete carriers used by the witnesses -/

/-- A small computable field on which every operation reduces by `decide`:
`a⁻¹ = a^5` on `Fin 7`. -/
instance : Field (Fin 7) where
  inv := fun a => a ^ 5
  div := fun a b => a * b ^ 5
  div_eq_mul_inv := fun _ _ => rfl
  mul_inv_cancel := by decide
  inv_zero := by decide
  nnqsmul := _
  nnqsmul_def := fun _ _ => rfl
  qsmul := _
  qsmul_def := fun _ _ => rfl

/-- Little-endian value of a byte string. -/
def byteValue : List Byte → ℕ := fun bs => bs.foldr (fun b acc => (b : ℕ) + 256 * acc) 0

/-- The four little-endian bytes of `n % 2^32`. -/
def leBytes4 (n : ℕ) : List Byte :=
  [⟨n % 256, by omega⟩, ⟨n / 256 % 256, by omega⟩,
    ⟨n / 65536 % 256, by omega⟩, ⟨n / 16777216 % 256, by omega⟩]

/-- A lawful byte conversion on the rationals, used to witness the theorems
that assume `GfBytes.Lawful`. -/
def ratBytes : GfBytes ℚ :=
  { from_bytes := fun bs => (byteValue bs : ℚ)
    to_bytes := fun a => leBytes4 (a.num.toNat % 2 ^ 32) }

/-- A trivial byte conversion on an arbitrary field, for theorems whose
statement does not depend on the conversion laws. -/
def anyBytes (F : Type) [Field F] : GfBytes F :=
  { from_bytes := fun _ => 0, to_bytes := fun _ => [] }

/-! # Theorems -/

/-! ## Varint codec -/

theorem varintEncodeF_congr : ∀ fuel fuel' n : ℕ, n ≤ fuel → n ≤ fuel' →
    varintEncodeF fuel n = varintEncodeF fuel' n := by
  intro fuel
  induction fuel using Nat.strong_induction_on with
  | _ fuel ih =>
    intro fuel' n hn hn'
    match fuel, fuel' with
    | 0, 0 => rfl
    | 0, fuel' + 1 =>
      interval_cases n
      simp [varintEncodeF]
    | fuel + 1, 0 =>
      interval_cases n
      simp [varintEncodeF]
    | fuel + 1, fuel' + 1 =>
      simp only [varintEncodeF]
      by_cases h : n < 128
      · simp [h]
      · simp only [h, if_false]
        have hd : n / 128 ≤ fuel := by omega
        have hd' : n / 128 ≤ fuel' := by
          have := Nat.div_le_self n 128
          omega
        rw [ih fuel (by omega) fuel' (n / 128) hd hd']

theorem varintEncode_unfold (n : ℕ) : varintEncode n =
    if n < 128 then [⟨n % 128, by omega⟩]
    else ⟨128 + n % 128, by omega⟩ :: varintEncode (n / 128) := by
  by_cases h : n < 128
  · simp only [varintEncode, h, if_true]
    match n, h with
    | 0, _ => rfl
    | n + 1, h => simp [varintEncodeF, h]
  · simp only [varintEncode, h, if_false]
    have hn : 1 ≤ n := by omega
    obtain ⟨m, rfl⟩ : ∃ m, n = m + 1 := ⟨n - 1, by omega⟩
    simp only [varintEncodeF, h, if_false]
    have h1 : m + 1 ≥ 128 := by omega
    have hd : (m + 1) / 128 ≤ m := by
      have := Nat.div_lt_self (by omega : 0 < m + 1) (by omega : 1 < 128)
      omega
    exact congrArg _ (varintEncodeF_congr m ((m + 1) / 128) ((m + 1) / 128) hd le_rfl)

theorem varintDecode_encode (n : ℕ) (rest : List Byte) :
    varintDecode (varintEncode n ++ rest) = some (n, rest) := by
  induction n using Nat.strong_induction_on with
  | _ n ih =>
    rw [varintEncode_unfold]
    by_cases h : n < 128
    · simp [h, varintDecode, Nat.mod_eq_of_lt h]
    · have hlt : n / 128 < n := Nat.div_lt_self (by omega) (by omega)
      simp only [h, if_false, List.cons_append, varintDecode]
      have hb : ¬ ((⟨128 + n % 128, by omega⟩ : Byte) : ℕ) < 128 := by simp
      simp only [hb, if_false]
      rw [ih (n / 128) hlt]
      have : n % 128 + 128 * (n / 128) = n := Nat.mod_add_div n 128
      simp [this]

theorem varintDecodeN_encode (ys : List ℕ) (rest : List Byte) :
    varintDecodeN ys.length ((ys.flatMap varintEncode) ++ rest) = some (ys, rest) := by
  induction ys generalizing rest with
  | nil => simp [varintDecodeN]
  | cons y ys ih =>
    simp only [List.flatMap_cons, List.length_cons, varintDecodeN, List.append_assoc,
      varintDecode_encode, ih]

theorem from_wire_partial_to_wire (s : Shard ℕ) (rest : List Byte) :
    Shard.from_wire_partial (s.to_wire ++ rest) = some (s, rest) := by
  unfold Shard.to_wire Shard.from_wire_partial
  simp only [List.append_assoc, varintDecode_encode]
  simp only [varintDecodeN_encode, varintDecode_encode]

/-- C3: for every shard satisfying the data-model invariants, decoding the
wire encoding returns the original shard: `from_wire (to_wire Q) = Q`. -/
theorem shard_wire_roundtrip (s : Shard ℕ) (_hs : ShardValid s) :
    Shard.from_wire s.to_wire = some s := by
  unfold Shard.from_wire
  rw [← List.append_nil s.to_wire, from_wire_partial_to_wire]

theorem shard_wire_roundtrip_witness :
    ShardValid ⟨1, [2], 4, 1⟩ ∧
      Shard.from_wire (Shard.to_wire ⟨1, [2], 4, 1⟩) = some ⟨1, [2], 4, 1⟩ :=
  ⟨by decide, shard_wire_roundtrip ⟨1, [2], 4, 1⟩ (by decide)⟩

/-- C9: `to_wire` is the concatenation, in order, of the LEB128 varints of
`x.inner()`, `|ys|`, each `y.inner()`, `threshold` and `secret_len`; in
particular the shard with `x = 1`, `ys = [2]`, `threshold = 1`,
`secret_len = 4` encodes to the five bytes `01 01 02 01 04`. -/
theorem to_wire_format :
    (∀ s : Shard ℕ, s.to_wire = varintEncode s.x ++ varintEncode s.ys.length ++
      s.ys.flatMap varintEncode ++ varintEncode s.threshold ++ varintEncode s.secret_len) ∧
    Shard.to_wire ⟨1, [2], 4, 1⟩ = [1, 1, 2, 1, 4] := by
  refine ⟨fun s => ?_, by decide⟩
  simp [Shard.to_wire, List.append_assoc]

/-- C10: `from_wire_partial` performs no semantic validation: on the four
well-formed varint bytes `00 00 00 00` it succeeds and returns the
invariant-violating shard with `x = 0` and `threshold = 0`; on
`00 00 00 05` it returns a shard whose `secret_len` is unrelated to `|ys|`;
it succeeds on every encoded shard whatever its field values, and fails on
a truncated varint sequence. -/
theorem from_wire_partial_no_validation :
    Shard.from_wire_partial [0, 0, 0, 0] = some (⟨0, [], 0, 0⟩, []) ∧
    ¬ ShardValid ⟨0, [], 0, 0⟩ ∧
    Shard.from_wire_partial [0, 0, 0, 5] = some (⟨0, [], 5, 0⟩, []) ∧
    ¬ ShardValid ⟨0, [], 5, 0⟩ ∧
    (∀ (s : Shard ℕ) (rest : List Byte),
      Shard.from_wire_partial (s.to_wire ++ rest) = some (s, rest)) ∧
    Shard.from_wire_partial [128] = none :=
  ⟨by decide, by decide, by decide, by decide, from_wire_partial_to_wire, by decide⟩

/-! ## Lawfulness of the rational byte conversion -/

theorem byteValue_lt (bs : List Byte) (h : bs.length ≤ 4) : byteValue bs < 2 ^ 32 := by
  match bs, h with
  | [], _ => simp [byteValue]
  | [b0], _ =>
    have := b0.isLt
    simp only [byteValue, List.foldr]
    omega
  | [b0, b1], _ =>
    have := b0.isLt; have := b1.isLt
    simp only [byteValue, List.foldr]
    omega
  | [b0, b1, b2], _ =>
    have := b0.isLt; have := b1.isLt; have := b2.isLt
    simp only [byteValue, List.foldr]
    omega
  | [b0, b1, b2, b3], _ =>
    have := b0.isLt; have := b1.isLt; have := b2.isLt; have := b3.isLt
    simp only [byteValue, List.foldr]
    omega

theorem byteValue_append_zeros (bs : List Byte) (k : ℕ) :
    byteValue (bs ++ List.replicate k 0) = byteValue bs := by
  induction bs with
  | nil =>
    simp only [List.nil_append, byteValue]
    induction k with
    | zero => rfl
    | succ k ih => simpa [List.replicate_succ] using ih
  | cons b bs ih => simp [byteValue, List.cons_append] at ih ⊢; omega

theorem ratBytes_lawful : ratBytes.Lawful := by
  constructor
  · intro a; rfl
  · intro bs hbs
    have hval : byteValue bs < 2 ^ 32 := byteValue_lt bs (by omega)
    match bs, hbs with
    | [b0, b1, b2, b3], _ =>
      have h0 := b0.isLt; have h1 := b1.isLt; have h2 := b2.isLt; have h3 := b3.isLt
      simp only [ratBytes, byteValue, List.foldr, leBytes4, Rat.num_natCast,
        Int.toNat_natCast] at hval ⊢
      refine List.ext_getElem (by simp) ?_
      intro i hi _
      match i, hi with
      | 0, _ => simp only [List.getElem_cons_zero]; exact Fin.ext (by simp; omega)
      | 1, _ => simp only [List.getElem_cons_succ, List.getElem_cons_zero]; exact Fin.ext (by simp; omega)
      | 2, _ => simp only [List.getElem_cons_succ, List.getElem_cons_zero]; exact Fin.ext (by simp; omega)
      | 3, _ => simp only [List.getElem_cons_succ, List.getElem_cons_zero]; exact Fin.ext (by simp; omega)
  · intro bs hbs
    show ((byteValue bs : ℕ) : ℚ) = ((byteValue (bs ++ List.replicate (4 - bs.length) 0) : ℕ) : ℚ)
    rw [byteValue_append_zeros]

/-! ## Chunking and the secret round-trip -/

theorem chunksOf4_length {β : Type} (l : List β) :
    (chunksOf4 l).length = (l.length + 3) / 4 := by
  induction l using chunksOf4.induct with
  | case1 => simp [chunksOf4]
  | case2 a => simp [chunksOf4]
  | case3 a b => simp [chunksOf4]
  | case4 a b c => simp [chunksOf4]
  | case5 a b c d rest ih => simp [chunksOf4, ih]; omega

theorem GfBytes.Lawful.to_bytes_chunk {F : Type} {B : GfBytes F} (hB : B.Lawful)
    (c : List Byte) (hc : c.length ≤ 4) :
    B.to_bytes (B.from_bytes c) = c ++ List.replicate (4 - c.length) 0 := by
  rw [hB.from_bytes_pad c hc, hB.to_bytes_from_bytes _ (by simp; omega)]

theorem secret_chunks {F : Type} (B : GfBytes F) (hB : B.Lawful) (S : List Byte) :
    (((chunksOf4 S).map B.from_bytes).flatMap B.to_bytes).take S.length = S := by
  induction S using chunksOf4.induct with
  | case1 => simp [chunksOf4]
  | case2 a =>
    simp only [chunksOf4, List.map_cons, List.map_nil, List.flatMap_cons, List.flatMap_nil,
      List.append_nil, hB.to_bytes_chunk [a] (by simp)]
    simp
  | case3 a b =>
    simp only [chunksOf4, List.map_cons, List.map_nil, List.flatMap_cons, List.flatMap_nil,
      List.append_nil, hB.to_bytes_chunk [a, b] (by simp)]
    simp
  | case4 a b c =>
    simp only [chunksOf4, List.map_cons, List.map_nil, List.flatMap_cons, List.flatMap_nil,
      List.append_nil, hB.to_bytes_chunk [a, b, c] (by simp)]
    simp
  | case5 a b c d rest ih =>
    simp only [chunksOf4, List.map_cons, List.flatMap_cons,
      hB.to_bytes_chunk [a, b, c, d] (by simp)]
    simp only [show (4 : ℕ) - [a, b, c, d].length = 0 from rfl, List.replicate_zero,
      List.append_nil, List.length_cons]
    rw [List.take_append_eq_append_take]
    simp [ih]

/-! ## Facts about `Dealer::new` -/

theorem enum_map_snd {α β : Type} (l : List α) (g : α → β) :
    l.enum.map (fun jc => g jc.2) = l.map g := by
  have : (fun jc : ℕ × α => g jc.2) = g ∘ Prod.snd := rfl
  rw [this, ← List.map_map, List.enum_map_snd]

theorem getD_map {α β : Type} (l : List α) (f : α → β) (i : ℕ) (hi : i < l.length)
    (d0 : β) (d1 : α) : (l.map f).getD i d0 = f (l.getD i d1) := by
  rw [List.getD_eq_getElem _ _ (by simpa using hi), List.getD_eq_getElem _ _ hi,
    List.getElem_map]

theorem new_fields {F : Type} [Field F] {t : ℕ} {S : List Byte} {B : GfBytes F}
    {coeffs : ℕ → ℕ → F} {d : Dealer F} (hd : Dealer.new t S B coeffs = some d) :
    t ≠ 0 ∧ d.threshold = t ∧ d.secret_len = S.length ∧
      d.polys = (chunksOf4 S).enum.map
        (fun jc => (GfPoly.new_rand (t - 1) (coeffs jc.1)).set 0 (B.from_bytes jc.2)) := by
  unfold Dealer.new at hd
  by_cases h : t = 0
  · simp [h] at hd
  · simp only [h, if_false, Option.some.injEq] at hd
    exact ⟨h, by rw [← hd], by rw [← hd], by rw [← hd]⟩

theorem new_polys_length {F : Type} [Field F] {t : ℕ} {S : List Byte} {B : GfBytes F}
    {coeffs : ℕ → ℕ → F} {d : Dealer F} (hd : Dealer.new t S B coeffs = some d) :
    d.polys.length = (S.length + 3) / 4 := by
  rw [(new_fields hd).2.2.2]
  simp [chunksOf4_length]

theorem new_poly_lengths {F : Type} [Field F] {t : ℕ} {S : List Byte} {B : GfBytes F}
    {coeffs : ℕ → ℕ → F} {d : Dealer F} (hd : Dealer.new t S B coeffs = some d) :
    ∀ p ∈ d.polys, p.length = t := by
  obtain ⟨ht, -, -, hpolys⟩ := new_fields hd
  intro p hp
  rw [hpolys] at hp
  obtain ⟨jc, -, rfl⟩ := List.mem_map.mp hp
  simp [GfPoly.new_rand]
  omega

theorem new_constants {F : Type} [Field F] {t : ℕ} {S : List Byte} {B : GfBytes F}
    {coeffs : ℕ → ℕ → F} {d : Dealer F} (hd : Dealer.new t S B coeffs = some d) :
    d.polys.map GfPoly.constant = (chunksOf4 S).map B.from_bytes := by
  obtain ⟨-, -, -, hpolys⟩ := new_fields hd
  rw [hpolys, List.map_map]
  have : ∀ jc ∈ (chunksOf4 S).enum,
      (GfPoly.constant ∘ fun jc : ℕ × List Byte =>
        (GfPoly.new_rand (t - 1) (coeffs jc.1)).set 0 (B.from_bytes jc.2)) jc =
      (fun jc : ℕ × List Byte => B.from_bytes jc.2) jc := by
    intro jc _
    show GfPoly.constant ((GfPoly.new_rand (t - 1) (coeffs jc.1)).set 0 (B.from_bytes jc.2)) = _
    unfold GfPoly.constant GfPoly.new_rand
    cases h : (List.range (t - 1 + 1)).map (coeffs jc.1) with
    | nil => exact absurd (congrArg List.length h) (by simp)
    | cons a rest => rfl
  rw [List.map_congr_left this, enum_map_snd]

/-- C2: for every threshold `t ≥ 1` and every byte string `S`, the secret
stored by `Dealer::new(t, S)` reads back as exactly `S`: chunking into
4-byte zero-padded field constants, re-serializing and truncating to
`secret_len` is the identity. -/
theorem dealer_secret_roundtrip {F : Type} [Field F] (B : GfBytes F) (hB : B.Lawful)
    (t : ℕ) (_ht : 1 ≤ t) (S : List Byte) (coeffs : ℕ → ℕ → F) (d : Dealer F)
    (hd : Dealer.new t S B coeffs = some d) :
    d.secret B = S := by
  unfold Dealer.secret
  rw [new_constants hd, (new_fields hd).2.2.1]
  exact secret_chunks B hB S

theorem dealer_secret_roundtrip_witness :
    ratBytes.Lawful ∧ (1 : ℕ) ≤ 1 ∧
      Dealer.new 1 [7, 8] ratBytes (fun _ _ => 0) =
        some ⟨[[ratBytes.from_bytes [7, 8]]], 2, 1⟩ ∧
      Dealer.secret ⟨[[ratBytes.from_bytes [7, 8]]], 2, 1⟩ ratBytes = [7, 8] :=
  ⟨ratBytes_lawful, le_refl 1, rfl,
    dealer_secret_roundtrip ratBytes ratBytes_lawful 1 (le_refl 1) [7, 8] (fun _ _ => 0)
      ⟨[[ratBytes.from_bytes [7, 8]]], 2, 1⟩ rfl⟩

/-! ## Facts about `next_shard` -/

theorem findNonZero_some {F : Type} [Field F] [DecidableEq F] :
    ∀ (fuel : ℕ) (rng : ℕ → F) (x : F), findNonZero rng fuel = some x → x ≠ 0 := by
  intro fuel
  induction fuel with
  | zero => intro rng x h; exact absurd h (by simp [findNonZero])
  | succ fuel ih =>
    intro rng x h
    unfold findNonZero at h
    by_cases h0 : rng 0 ≠ 0
    · rw [if_pos h0] at h
      rw [← Option.some.inj h]; exact h0
    · rw [if_neg h0] at h
      exact ih _ x h

theorem next_shard_fields {F : Type} [Field F] [DecidableEq F] {d : Dealer F}
    {rng : ℕ → F} {fuel : ℕ} {Q : Shard F} (hQ : d.next_shard rng fuel = some Q) :
    Q.x ≠ 0 ∧ Q.threshold = d.threshold ∧ Q.secret_len = d.secret_len ∧
      Q.ys = d.polys.map (fun p => GfPoly.evaluate p Q.x) := by
  unfold Dealer.next_shard at hQ
  split at hQ
  · exact absurd hQ (by simp)
  · rename_i x hfind
    split at hQ
    · rename_i hcheck
      obtain rfl := (Option.some.inj hQ).symm
      exact ⟨findNonZero_some fuel rng x hfind, rfl, rfl, rfl⟩
    · exact absurd hQ (by simp)

/-- C7: every shard minted by `next_shard` from `Dealer::new(t, S)` satisfies
the shard invariants: non-zero `x`, the dealer's threshold and secret
length, and `|ys| = ceil(secret_len / 4)` (zero for an empty secret). -/
theorem next_shard_invariants {F : Type} [Field F] [DecidableEq F] (B : GfBytes F)
    (t : ℕ) (S : List Byte) (coeffs : ℕ → ℕ → F) (d : Dealer F)
    (hd : Dealer.new t S B coeffs = some d)
    (rng : ℕ → F) (fuel : ℕ) (Q : Shard F)
    (hQ : d.next_shard rng fuel = some Q) :
    Q.x ≠ 0 ∧ Q.threshold = t ∧ Q.secret_len = S.length ∧
      Q.ys.length = (S.length + 3) / 4 := by
  obtain ⟨hx, hth, hsl, hys⟩ := next_shard_fields hQ
  obtain ⟨-, hth', hsl', -⟩ := new_fields hd
  refine ⟨hx, by rw [hth, hth'], by rw [hsl, hsl'], ?_⟩
  rw [hys, List.length_map, new_polys_length hd]

theorem next_shard_invariants_witness :
    Dealer.new 2 [9] (anyBytes (Fin 7)) (fun _ i => if i = 0 then 0 else 1) =
        some ⟨[[(anyBytes (Fin 7)).from_bytes [9], 1]], 1, 2⟩ ∧
      Dealer.next_shard ⟨[[(anyBytes (Fin 7)).from_bytes [9], 1]], 1, 2⟩ (fun _ => 3) 1 =
        some ⟨3, [(anyBytes (Fin 7)).from_bytes [9] + 3 * (1 + 3 * 0)], 1, 2⟩ ∧
      (3 : Fin 7) ≠ 0 ∧
      (⟨3, [(anyBytes (Fin 7)).from_bytes [9] + 3 * (1 + 3 * 0)], 1, 2⟩ : Shard (Fin 7)).threshold = 2 ∧
      (⟨3, [(anyBytes (Fin 7)).from_bytes [9] + 3 * (1 + 3 * 0)], 1, 2⟩ : Shard (Fin 7)).secret_len = 1 ∧
      (⟨3, [(anyBytes (Fin 7)).from_bytes [9] + 3 * (1 + 3 * 0)], 1, 2⟩ : Shard (Fin 7)).ys.length = (1 + 3) / 4 := by
  refine ⟨by decide, by decide, ?_, ?_, ?_, ?_⟩
  have h := next_shard_invariants (anyBytes (Fin 7)) 2 [9] (fun _ i => if i = 0 then 0 else 1)
    ⟨[[(anyBytes (Fin 7)).from_bytes [9], 1]], 1, 2⟩ (by decide) (fun _ => 3) 1
    ⟨3, [(anyBytes (Fin 7)).from_bytes [9] + 3 * (1 + 3 * 0)], 1, 2⟩ (by decide)
  · exact h.1
  · exact (next_shard_invariants (anyBytes (Fin 7)) 2 [9] (fun _ i => if i = 0 then 0 else 1)
      ⟨[[(anyBytes (Fin 7)).from_bytes [9], 1]], 1, 2⟩ (by decide) (fun _ => 3) 1
      ⟨3, [(anyBytes (Fin 7)).from_bytes [9] + 3 * (1 + 3 * 0)], 1, 2⟩ (by decide)).2.1
  · exact (next_shard_invariants (anyBytes (Fin 7)) 2 [9] (fun _ i => if i = 0 then 0 else 1)
      ⟨[[(anyBytes (Fin 7)).from_bytes [9], 1]], 1, 2⟩ (by decide) (fun _ => 3) 1
      ⟨3, [(anyBytes (Fin 7)).from_bytes [9] + 3 * (1 + 3 * 0)], 1, 2⟩ (by decide)).2.2.1
  · exact (next_shard_invariants (anyBytes (Fin 7)) 2 [9] (fun _ i => if i = 0 then 0 else 1)
      ⟨[[(anyBytes (Fin 7)).from_bytes [9], 1]], 1, 2⟩ (by decide) (fun _ => 3) 1
      ⟨3, [(anyBytes (Fin 7)).from_bytes [9] + 3 * (1 + 3 * 0)], 1, 2⟩ (by decide)).2.2.2

/-! ## `collectSome` -/

theorem collectSome_of_forall {α β : Type} (f : α → Option β) (g : α → β) :
    ∀ l : List α, (∀ a ∈ l, f a = some (g a)) → collectSome f l = some (l.map g) := by
  intro l
  induction l with
  | nil => intro _; rfl
  | cons a l ih =>
    intro h
    have ha := h a (by simp)
    have hl := ih (fun b hb => h b (by simp [hb]))
    simp [collectSome, ha, hl]

theorem collectSome_eq_some_iff {α β : Type} (f : α → Option β) :
    ∀ (l : List α) (ys : List β),
      collectSome f l = some ys ↔ List.Forall₂ (fun a b => f a = some b) l ys := by
  intro l
  induction l with
  | nil =>
    intro ys
    constructor
    · intro h
      obtain rfl := (Option.some.inj h).symm
      exact List.Forall₂.nil
    · intro h
      cases h
      rfl
  | cons a l ih =>
    intro ys
    constructor
    · intro h
      unfold collectSome at h
      cases hfa : f a with
      | none => rw [hfa] at h; exact absurd h (by simp)
      | some b =>
        rw [hfa] at h
        cases hl : collectSome f l with
        | none => rw [hl] at h; exact absurd h (by simp)
        | some bs =>
          rw [hl] at h
          obtain rfl := (Option.some.inj h).symm
          exact List.Forall₂.cons hfa ((ih bs).mp hl)
    · intro h
      cases h with
      | cons hab h' => simp [collectSome, hab, (ih _).mpr h']

/-! ## The validation prologue of recovery (`checkShards`) -/

theorem checkShards_none_iff {F : Type} (shards : List (Shard F)) :
    checkShards shards = none ↔ RecoverViolation shards := by
  cases shards with
  | nil => simp [checkShards, RecoverViolation]
  | cons s0 rest =>
    rw [checkShards]
    unfold RecoverViolation
    by_cases hC : (∀ s ∈ s0 :: rest, s.threshold = s0.threshold ∧ s.ys.length = s0.ys.length ∧
        s.secret_len = s0.secret_len) ∧ (s0 :: rest).length = s0.threshold
    · rw [if_pos hC]
      simp only [List.head?_cons, Option.some.injEq]
      constructor
      · intro h; exact absurd h (by simp)
      · rintro (h | ⟨s1, rfl, h | h⟩)
        · exact absurd h (by simp)
        · obtain ⟨s, hs, hne⟩ := h
          obtain ⟨h1, h2, h3⟩ := hC.1 s hs
          rcases hne with hne | hne | hne <;> [exact absurd h1 hne; exact absurd h2 hne;
            exact absurd h3 hne]
        · exact absurd hC.2 h
    · rw [if_neg hC]
      simp only [true_iff]
      right
      refine ⟨s0, by simp, ?_⟩
      rw [Classical.not_and_iff_or_not_not] at hC
      rcases hC with hC | hC
      · left
        push_neg at hC
        obtain ⟨s, hs, hne⟩ := hC
        exact ⟨s, hs, by tauto⟩
      · right; exact hC

/-- C5: the validation prologue shared by `Dealer::recover` and
`recover_secret` aborts fatally, before any interpolation, exactly when a
caller precondition is violated -- the shard list is empty, some shard
disagrees with `shards[0]` on `threshold`, `|ys|` or `secret_len`, or the
shard count differs from the threshold of `shards[0]` -- and both recovery
functions return fatally when it does. -/
theorem recover_validation {F : Type} [Field F] [DecidableEq F] (B : GfBytes F)
    (shards : List (Shard F)) :
    (checkShards shards = none ↔ RecoverViolation shards) ∧
      (checkShards shards = none →
        Dealer.recover shards = none ∧ recover_secret B shards = none) := by
  refine ⟨checkShards_none_iff shards, fun h => ⟨?_, ?_⟩⟩
  · unfold Dealer.recover
    rw [h]
  · unfold recover_secret
    rw [h]

theorem recover_validation_witness :
    checkShards (F := Fin 7) [⟨1, [], 0, 0⟩] = none ∧
      RecoverViolation (F := Fin 7) [⟨1, [], 0, 0⟩] ∧
      Dealer.recover (F := Fin 7) [⟨1, [], 0, 0⟩] = none ∧
      recover_secret (anyBytes (Fin 7)) [⟨1, [], 0, 0⟩] = none := by
  have hv : RecoverViolation (F := Fin 7) [⟨1, [], 0, 0⟩] :=
    Or.inr ⟨⟨1, [], 0, 0⟩, rfl, Or.inr (by decide)⟩
  have hn : checkShards (F := Fin 7) [⟨1, [], 0, 0⟩] = none :=
    (recover_validation (anyBytes (Fin 7)) [⟨1, [], 0, 0⟩]).1.mpr hv
  have h2 := (recover_validation (anyBytes (Fin 7)) [⟨1, [], 0, 0⟩]).2 hn
  exact ⟨hn, hv, h2.1, h2.2⟩

/-! ## Coefficient lists and their polynomials -/

theorem evaluate_zero {F : Type} [Field F] (p : GfPoly F) :
    GfPoly.evaluate p 0 = GfPoly.constant p := by
  cases p with
  | nil => rfl
  | cons c q => simp [GfPoly.evaluate, GfPoly.constant]

theorem toPoly_eval {F : Type} [Field F] (p : GfPoly F) (x : F) :
    (toPoly p).eval x = GfPoly.evaluate p x := by
  induction p with
  | nil => simp [toPoly, GfPoly.evaluate]
  | cons c q ih =>
    show (Polynomial.C c + Polynomial.X * toPoly q).eval x = c + x * GfPoly.evaluate q x
    simp [ih]

theorem toPoly_coeff {F : Type} [Field F] (p : GfPoly F) (n : ℕ) :
    (toPoly p).coeff n = p.getD n 0 := by
  induction p generalizing n with
  | nil => simp [toPoly]
  | cons c q ih =>
    show (Polynomial.C c + Polynomial.X * toPoly q).coeff n = (c :: q).getD n 0
    cases n with
    | zero => simp [Polynomial.mul_coeff_zero]
    | succ n => simp [Polynomial.coeff_X_mul, ih]

theorem toPoly_degree_lt {F : Type} [Field F] (p : GfPoly F) :
    (toPoly p).degree < (p.length : WithBot ℕ) := by
  induction p with
  | nil =>
    show (0 : Polynomial F).degree < ((0 : ℕ) : WithBot ℕ)
    simp [Polynomial.degree_zero]
  | cons c q ih =>
    show (Polynomial.C c + Polynomial.X * toPoly q).degree < ((q.length + 1 : ℕ) : WithBot ℕ)
    refine lt_of_le_of_lt (Polynomial.degree_add_le _ _) (max_lt ?_ ?_)
    · refine lt_of_le_of_lt Polynomial.degree_C_le ?_
      exact_mod_cast WithBot.coe_lt_coe.mpr (Nat.succ_pos _)
    · rw [Polynomial.degree_mul, Polynomial.degree_X]
      have h1 : (1 : WithBot ℕ) + (toPoly q).degree < 1 + (q.length : WithBot ℕ) :=
        WithBot.add_lt_add_left (by simp) ih
      refine lt_of_lt_of_le h1 ?_
      rw [show ((q.length + 1 : ℕ) : WithBot ℕ) = 1 + (q.length : WithBot ℕ) by push_cast; ring]

theorem toPoly_inj {F : Type} [Field F] (p q : GfPoly F) (hl : p.length = q.length)
    (h : toPoly p = toPoly q) : p = q := by
  refine List.ext_getElem hl ?_
  intro i h1 h2
  have hc := congrArg (fun f => Polynomial.coeff f i) h
  simp only [toPoly_coeff] at hc
  rwa [List.getD_eq_getElem _ _ h1, List.getD_eq_getElem _ _ h2] at hc

theorem polyAdd_nil_right {F : Type} [Field F] (p : GfPoly F) : polyAdd p [] = p := by
  cases p <;> rfl

theorem polyAdd_length {F : Type} [Field F] :
    ∀ p q : GfPoly F, (polyAdd p q).length = max p.length q.length := by
  intro p
  induction p with
  | nil => intro q; simp [polyAdd]
  | cons a p ih =>
    intro q
    cases q with
    | nil => simp [polyAdd_nil_right]
    | cons b q =>
      show ((a + b) :: polyAdd p q).length = _
      simp [ih]
      omega

theorem toPoly_polyAdd {F : Type} [Field F] :
    ∀ p q : GfPoly F, toPoly (polyAdd p q) = toPoly p + toPoly q := by
  intro p
  induction p with
  | nil => intro q; simp [polyAdd, toPoly]
  | cons a p ih =>
    intro q
    cases q with
    | nil => simp [polyAdd_nil_right, toPoly]
    | cons b q =>
      show toPoly ((a + b) :: polyAdd p q) =
        (Polynomial.C a + Polynomial.X * toPoly p) + (Polynomial.C b + Polynomial.X * toPoly q)
      show Polynomial.C (a + b) + Polynomial.X * toPoly (polyAdd p q) = _
      rw [ih, map_add]
      ring

theorem polyScale_length {F : Type} [Field F] (c : F) (p : GfPoly F) :
    (polyScale c p).length = p.length := by
  simp [polyScale]

theorem toPoly_polyScale {F : Type} [Field F] (c : F) (p : GfPoly F) :
    toPoly (polyScale c p) = Polynomial.C c * toPoly p := by
  induction p with
  | nil => simp [polyScale, toPoly]
  | cons a p ih =>
    show toPoly ((c * a) :: polyScale c p) = _
    show Polynomial.C (c * a) + Polynomial.X * toPoly (polyScale c p) =
      Polynomial.C c * (Polynomial.C a + Polynomial.X * toPoly p)
    rw [ih, map_mul]
    ring

theorem toPoly_polyMul {F : Type} [Field F] :
    ∀ p q : GfPoly F, toPoly (polyMul p q) = toPoly p * toPoly q := by
  intro p
  induction p with
  | nil => intro q; simp [polyMul, toPoly]
  | cons a p ih =>
    intro q
    show toPoly (polyAdd (polyScale a q) (0 :: polyMul p q)) =
      (Polynomial.C a + Polynomial.X * toPoly p) * toPoly q
    rw [toPoly_polyAdd, toPoly_polyScale]
    show Polynomial.C a * toPoly q +
      (Polynomial.C 0 + Polynomial.X * toPoly (polyMul p q)) = _
    rw [ih]
    simp
    ring

theorem polyMul_pair_length {F : Type} [Field F] (a b : F) (q : GfPoly F) (hq : q ≠ []) :
    (polyMul [a, b] q).length = q.length + 1 := by
  have h1 : 1 ≤ q.length := by
    cases q with
    | nil => exact absurd rfl hq
    | cons c q => simp
  show (polyAdd (polyScale a q) (0 :: polyMul [b] q)).length = _
  have h2 : (polyMul [b] q).length = q.length := by
    show (polyAdd (polyScale b q) (0 :: polyMul [] q)).length = _
    show (polyAdd (polyScale b q) [0]).length = _
    rw [polyAdd_length, polyScale_length]
    simp
    omega
  rw [polyAdd_length, polyScale_length]
  simp only [List.length_cons, h2]
  omega

theorem lagNodes_length {F : Type} [Field F] (xs : List F) :
    (lagNodes xs).length = xs.length + 1 := by
  induction xs with
  | nil => rfl
  | cons c xs ih =>
    show (polyMul [-c, 1] (lagNodes xs)).length = xs.length + 2
    have h : lagNodes xs ≠ [] := by
      intro h
      have := congrArg List.length h
      rw [ih] at this
      simp at this
    rw [polyMul_pair_length _ _ _ h, ih]

theorem toPoly_lagNodes {F : Type} [Field F] (xs : List F) :
    toPoly (lagNodes xs) = (xs.map (fun c => Polynomial.X - Polynomial.C c)).prod := by
  induction xs with
  | nil =>
    show toPoly [1] = _
    simp [toPoly]
  | cons c xs ih =>
    show toPoly (polyMul [-c, 1] (lagNodes xs)) = _
    rw [toPoly_polyMul, ih, List.map_cons, List.prod_cons]
    have hlin : toPoly [-c, 1] = Polynomial.X - Polynomial.C c := by
      show Polynomial.C (-c) + Polynomial.X *
        (Polynomial.C 1 + Polynomial.X * 0) = _
      simp
      ring
    rw [hlin]

theorem foldr_polyAdd_length {F : Type} [Field F] (n : ℕ) :
    ∀ L : List (GfPoly F), L ≠ [] → (∀ p ∈ L, p.length = n) →
      (L.foldr polyAdd []).length = n := by
  intro L
  induction L with
  | nil => intro h; exact absurd rfl h
  | cons a L ih =>
    intro _ hall
    cases L with
    | nil =>
      show (polyAdd a []).length = n
      rw [polyAdd_nil_right]
      exact hall a (by simp)
    | cons b L' =>
      show (polyAdd a ((b :: L').foldr polyAdd [])).length = n
      rw [polyAdd_length, ih (by simp) (fun p hp => hall p (List.mem_cons_of_mem a hp)),
        hall a (by simp)]
      omega

theorem toPoly_foldr_polyAdd {F : Type} [Field F] :
    ∀ L : List (GfPoly F), toPoly (L.foldr polyAdd []) = (L.map toPoly).sum := by
  intro L
  induction L with
  | nil => simp [toPoly]
  | cons a L ih =>
    show toPoly (polyAdd a (L.foldr polyAdd [])) = _
    rw [toPoly_polyAdd, ih, List.map_cons, List.sum_cons]

theorem listProd_filter_ne {M : Type} [CommMonoid M] {n : ℕ} (i : Fin n) (f : Fin n → M) :
    (((List.finRange n).filter (fun j => j ≠ i)).map f).prod =
      Finset.prod (Finset.univ.erase i) f := by
  rw [← Finset.filter_ne' Finset.univ i, Finset.prod_filter, Fin.prod_univ_def]
  have key : ∀ l : List (Fin n),
      ((l.filter (fun j => j ≠ i)).map f).prod =
        (l.map (fun j => if j ≠ i then f j else 1)).prod := by
    intro l
    induction l with
    | nil => rfl
    | cons a l ih =>
      rw [List.filter_cons]
      by_cases ha : a = i
      · subst ha
        rw [if_neg (by simp), ih, List.map_cons, List.prod_cons, if_neg (by simp), one_mul]
      · rw [if_pos (by simpa using ha), List.map_cons, List.prod_cons, ih,
          List.map_cons, List.prod_cons, if_pos ha]
  exact key _

theorem lagOthers_length {F : Type} (pts : List (F × F)) (i : Fin pts.length) :
    (lagOthers pts i).length = pts.length - 1 := by
  unfold lagOthers
  have hnd : ((List.finRange pts.length).filter (fun j => j ≠ i)).Nodup :=
    (List.nodup_finRange _).filter _
  rw [← List.toFinset_card_of_nodup hnd, List.toFinset_filter, List.toFinset_finRange]
  have : (Finset.univ.filter fun a : Fin pts.length => decide (a ≠ i) = true) =
      Finset.univ.erase i := by
    rw [← Finset.filter_ne' Finset.univ i]
    apply Finset.filter_congr
    intro j _
    simp
  rw [this, Finset.card_erase_of_mem (Finset.mem_univ i), Finset.card_univ, Fintype.card_fin]

/-! ## The Lagrange formulas against Mathlib's interpolant -/

theorem C_list_prod {F : Type} [Field F] :
    ∀ l : List F, Polynomial.C l.prod = (l.map Polynomial.C).prod := by
  intro l
  induction l with
  | nil => simp
  | cons a l ih => simp [ih]

theorem lagConstFormula_eq_eval {F : Type} [Field F] (pts : List (F × F)) :
    lagConstFormula pts =
      (Lagrange.interpolate Finset.univ (fun i : Fin pts.length => (pts.get i).1)
        (fun i : Fin pts.length => (pts.get i).2)).eval 0 := by
  rw [Lagrange.interpolate_apply, Polynomial.eval_finset_sum]
  unfold lagConstFormula
  rw [← Fin.sum_univ_def]
  apply Finset.sum_congr rfl
  intro i _
  rw [Polynomial.eval_mul, Polynomial.eval_C]
  congr 1
  unfold Lagrange.basis
  rw [Polynomial.eval_prod]
  unfold lagBasisAt0 lagOthers
  rw [listProd_filter_ne i
    (fun j => (0 - (pts.get j).1) / ((pts.get i).1 - (pts.get j).1))]
  apply Finset.prod_congr rfl
  intro j _
  unfold Lagrange.basisDivisor
  rw [Polynomial.eval_mul, Polynomial.eval_C, Polynomial.eval_sub, Polynomial.eval_X,
    Polynomial.eval_C, div_eq_mul_inv, mul_comm]

theorem toPoly_lagPolyFormula {F : Type} [Field F] (pts : List (F × F)) :
    toPoly (lagPolyFormula pts) =
      Lagrange.interpolate Finset.univ (fun i : Fin pts.length => (pts.get i).1)
        (fun i : Fin pts.length => (pts.get i).2) := by
  unfold lagPolyFormula
  rw [toPoly_foldr_polyAdd, List.map_map, Lagrange.interpolate_apply, ← Fin.sum_univ_def]
  apply Finset.sum_congr rfl
  intro i _
  show toPoly (lagShare pts i) = _
  unfold lagShare
  rw [toPoly_polyScale, toPoly_lagNodes, map_mul, List.map_map]
  unfold lagCoeff
  rw [C_list_prod, List.map_map]
  unfold Lagrange.basis
  rw [mul_assoc, ← List.prod_map_mul]
  congr 1
  unfold lagOthers
  refine Eq.trans (listProd_filter_ne i _) ?_
  apply Finset.prod_congr rfl
  intro j _
  simp [Lagrange.basisDivisor]

theorem injOn_fst_get {F : Type} (pts : List (F × F)) (hnd : (pts.map Prod.fst).Nodup) :
    Set.InjOn (fun i : Fin pts.length => (pts.get i).1)
      (Finset.univ : Finset (Fin pts.length)) := by
  have hinj := List.nodup_iff_injective_get.mp hnd
  intro i _ j _ hij
  have hcast : (pts.map Prod.fst).get (Fin.cast (by simp) i) =
      (pts.map Prod.fst).get (Fin.cast (by simp) j) := by
    simp only [List.get_eq_getElem, Fin.coe_cast, List.getElem_map]
    exact hij
  have h3 := congrArg Fin.val (hinj hcast)
  simp only [Fin.coe_cast] at h3
  exact Fin.ext h3

theorem interpolate_fit {F : Type} [Field F] (p : GfPoly F) (pts : List (F × F))
    (hlen : pts.length = p.length) (_hp : p ≠ [])
    (hnd : (pts.map Prod.fst).Nodup)
    (hy : ∀ i : Fin pts.length, (pts.get i).2 = GfPoly.evaluate p (pts.get i).1) :
    Lagrange.interpolate Finset.univ (fun i : Fin pts.length => (pts.get i).1)
      (fun i : Fin pts.length => (pts.get i).2) = toPoly p := by
  have hvs := injOn_fst_get pts hnd
  have hdeg : (toPoly p).degree <
      ((Finset.univ : Finset (Fin pts.length)).card : WithBot ℕ) := by
    rw [Finset.card_univ, Fintype.card_fin, hlen]
    exact toPoly_degree_lt p
  have heval : ∀ i ∈ (Finset.univ : Finset (Fin pts.length)),
      (toPoly p).eval ((fun i : Fin pts.length => (pts.get i).1) i) =
        (fun i : Fin pts.length => (pts.get i).2) i := by
    intro i _
    rw [toPoly_eval]
    exact (hy i).symm
  exact (Lagrange.eq_interpolate_of_eval_eq _ hvs hdeg heval).symm

theorem lagConst_correct {F : Type} [Field F] (p : GfPoly F) (pts : List (F × F))
    (hlen : pts.length = p.length) (hp : p ≠ [])
    (hnd : (pts.map Prod.fst).Nodup)
    (hy : ∀ i : Fin pts.length, (pts.get i).2 = GfPoly.evaluate p (pts.get i).1) :
    lagConstFormula pts = GfPoly.constant p := by
  rw [lagConstFormula_eq_eval, interpolate_fit p pts hlen hp hnd hy, toPoly_eval,
    evaluate_zero]

theorem lagrange_constant_correct {F : Type} [Field F] [DecidableEq F]
    (p : GfPoly F) (pts : List (F × F))
    (hlen : pts.length = p.length) (hp : p ≠ [])
    (hnd : (pts.map Prod.fst).Nodup)
    (hy : ∀ i : Fin pts.length, (pts.get i).2 = GfPoly.evaluate p (pts.get i).1) :
    GfPoly.lagrange_constant (p.length - 1) pts = some (GfPoly.constant p) := by
  have hp1 : 1 ≤ p.length := List.length_pos.mpr hp
  unfold GfPoly.lagrange_constant
  rw [if_pos ⟨by omega, hnd⟩, lagConst_correct p pts hlen hp hnd hy]

theorem lagPolyFormula_length {F : Type} [Field F] (pts : List (F × F))
    (h : pts.length ≠ 0) : (lagPolyFormula pts).length = pts.length := by
  unfold lagPolyFormula
  apply foldr_polyAdd_length
  · intro hemp
    have hlen0 : ((List.finRange pts.length).map (fun i => lagShare pts i)).length = 0 := by
      rw [hemp]
      rfl
    simp only [List.length_map, List.length_finRange] at hlen0
    exact h hlen0
  · intro q hq
    obtain ⟨i, -, rfl⟩ := List.mem_map.mp hq
    unfold lagShare
    rw [polyScale_length, lagNodes_length, List.length_map, lagOthers_length]
    omega

theorem lagrange_correct {F : Type} [Field F] [DecidableEq F]
    (p : GfPoly F) (pts : List (F × F))
    (hlen : pts.length = p.length) (hp : p ≠ [])
    (hnd : (pts.map Prod.fst).Nodup)
    (hy : ∀ i : Fin pts.length, (pts.get i).2 = GfPoly.evaluate p (pts.get i).1) :
    GfPoly.lagrange (p.length - 1) pts = some p := by
  have hp1 : 1 ≤ p.length := List.length_pos.mpr hp
  unfold GfPoly.lagrange
  rw [if_pos ⟨by omega, hnd⟩]
  congr 1
  apply toPoly_inj
  · rw [lagPolyFormula_length pts (by omega), hlen]
  · rw [toPoly_lagPolyFormula, interpolate_fit p pts hlen hp hnd hy]

/-! ## Assembly helpers for the recovery theorems -/

theorem range_map_getD {α β : Type} (l : List α) (dflt : α) (h : α → β) :
    (List.range l.length).map (fun i => h (l.getD i dflt)) = l.map h := by
  refine List.ext_getElem (by simp) ?_
  intro i h1 h2
  simp only [List.getElem_map, List.getElem_range]
  rw [List.getD_eq_getElem _ _ (by simpa using h2)]

theorem range_map_getD_self {α : Type} (l : List α) (dflt : α) :
    (List.range l.length).map (fun i => l.getD i dflt) = l := by
  have := range_map_getD l dflt id
  simpa using this

theorem recover_secret_eq {F : Type} [Field F] [DecidableEq F] (B : GfBytes F)
    (shards : List (Shard F)) (t m L : ℕ) (h : checkShards shards = some (t, m, L)) :
    recover_secret B shards =
      takeCollect B
        (fun i => GfPoly.lagrange_constant (t - 1) (shardPoints shards i))
        (List.range m) L := by
  unfold recover_secret
  rw [h]

theorem takeCollect_of_forall {F : Type} (B : GfBytes F) (f : ℕ → Option F) (g : ℕ → F) :
    ∀ (idxs : List ℕ) (need : ℕ), (∀ i ∈ idxs, f i = some (g i)) →
      takeCollect B f idxs need = some (((idxs.map g).flatMap B.to_bytes).take need) := by
  intro idxs
  induction idxs with
  | nil =>
    intro need h
    cases need with
    | zero => rfl
    | succ n => rfl
  | cons i rest ih =>
    intro need h
    cases need with
    | zero => rfl
    | succ n =>
      have e : takeCollect B f (i :: rest) (n + 1) =
          match f i with
          | none => none
          | some c =>
            if n + 1 ≤ (B.to_bytes c).length then some ((B.to_bytes c).take (n + 1))
            else
              match takeCollect B f rest (n + 1 - (B.to_bytes c).length) with
              | none => none
              | some tail => some ((B.to_bytes c) ++ tail) := rfl
      rw [e, h i (by simp)]
      show (if n + 1 ≤ (B.to_bytes (g i)).length then some ((B.to_bytes (g i)).take (n + 1))
        else
          match takeCollect B f rest (n + 1 - (B.to_bytes (g i)).length) with
          | none => none
          | some tail => some ((B.to_bytes (g i)) ++ tail)) = _
      by_cases hle : n + 1 ≤ (B.to_bytes (g i)).length
      · rw [if_pos hle, List.map_cons, List.flatMap_cons, List.take_append_eq_append_take,
          show n + 1 - (B.to_bytes (g i)).length = 0 by omega, List.take_zero,
          List.append_nil]
      · rw [if_neg hle,
          ih (n + 1 - (B.to_bytes (g i)).length) (fun j hj => h j (by simp [hj]))]
        show some _ = _
        rw [List.map_cons, List.flatMap_cons, List.take_append_eq_append_take,
          show List.take (n + 1) (B.to_bytes (g i)) = B.to_bytes (g i) from
            List.take_of_length_le (by omega)]

theorem takeCollect_congr {F : Type} (B : GfBytes F) (f g : ℕ → Option F) :
    ∀ (idxs : List ℕ) (need : ℕ), (∀ i ∈ idxs, f i = g i) →
      takeCollect B f idxs need = takeCollect B g idxs need := by
  intro idxs
  induction idxs with
  | nil =>
    intro need h
    cases need with
    | zero => rfl
    | succ n => rfl
  | cons i rest ih =>
    intro need h
    cases need with
    | zero => rfl
    | succ n =>
      have ef : takeCollect B f (i :: rest) (n + 1) =
          match f i with
          | none => none
          | some c =>
            if n + 1 ≤ (B.to_bytes c).length then some ((B.to_bytes c).take (n + 1))
            else
              match takeCollect B f rest (n + 1 - (B.to_bytes c).length) with
              | none => none
              | some tail => some ((B.to_bytes c) ++ tail) := rfl
      have eg : takeCollect B g (i :: rest) (n + 1) =
          match g i with
          | none => none
          | some c =>
            if n + 1 ≤ (B.to_bytes c).length then some ((B.to_bytes c).take (n + 1))
            else
              match takeCollect B g rest (n + 1 - (B.to_bytes c).length) with
              | none => none
              | some tail => some ((B.to_bytes c) ++ tail) := rfl
      rw [ef, eg, h i (by simp)]
      cases g i with
      | none => rfl
      | some c =>
        show (if n + 1 ≤ (B.to_bytes c).length then some ((B.to_bytes c).take (n + 1))
          else
            match takeCollect B f rest (n + 1 - (B.to_bytes c).length) with
            | none => none
            | some tail => some ((B.to_bytes c) ++ tail)) = _
        rw [ih (n + 1 - (B.to_bytes c).length) (fun j hj => h j (by simp [hj]))]

theorem dealer_recover_eq {F : Type} [Field F] [DecidableEq F]
    (shards : List (Shard F)) (t m L : ℕ) (h : checkShards shards = some (t, m, L)) :
    Dealer.recover shards =
      match collectSome
          (fun i => GfPoly.lagrange (t - 1) (shardPoints shards i))
          (List.range m) with
      | none => none
      | some polys => some { polys := polys, secret_len := L, threshold := t } := by
  unfold Dealer.recover
  rw [h]

theorem recover_none_of_check {F : Type} [Field F] [DecidableEq F] (B : GfBytes F)
    (shards : List (Shard F)) (h : checkShards shards = none) :
    Dealer.recover shards = none ∧ recover_secret B shards = none := by
  constructor
  · unfold Dealer.recover
    rw [h]
  · unfold recover_secret
    rw [h]

theorem checkShards_some {F : Type} {shards : List (Shard F)} {t m L : ℕ}
    (h : checkShards shards = some (t, m, L)) :
    shards ≠ [] ∧ shards.length = t ∧
      ∀ s ∈ shards, s.threshold = t ∧ s.ys.length = m ∧ s.secret_len = L := by
  cases shards with
  | nil => exact absurd h (by simp [checkShards])
  | cons s0 rest =>
    rw [checkShards] at h
    by_cases hC : (∀ s ∈ s0 :: rest, s.threshold = s0.threshold ∧
        s.ys.length = s0.ys.length ∧ s.secret_len = s0.secret_len) ∧
        (s0 :: rest).length = s0.threshold
    · rw [if_pos hC] at h
      have htrip := Option.some.inj h
      have h1 : s0.threshold = t := congrArg Prod.fst htrip
      have h2 : s0.ys.length = m := congrArg (fun p => p.2.1) htrip
      have h3 : s0.secret_len = L := congrArg (fun p => p.2.2) htrip
      refine ⟨by simp, by rw [← h1]; exact hC.2, ?_⟩
      intro s hs
      obtain ⟨g1, g2, g3⟩ := hC.1 s hs
      exact ⟨by rw [g1, h1], by rw [g2, h2], by rw [g3, h3]⟩
    · rw [if_neg hC] at h
      exact absurd h (by simp)

theorem checkShards_intro {F : Type} {shards : List (Shard F)} {t m L : ℕ}
    (hne : shards ≠ []) (hlen : shards.length = t)
    (hall : ∀ s ∈ shards, s.threshold = t ∧ s.ys.length = m ∧ s.secret_len = L) :
    checkShards shards = some (t, m, L) := by
  cases shards with
  | nil => exact absurd rfl hne
  | cons s0 rest =>
    obtain ⟨h1, h2, h3⟩ := hall s0 (by simp)
    rw [checkShards, if_pos ?_]
    · rw [h1, h2, h3]
    · constructor
      · intro s hs
        obtain ⟨g1, g2, g3⟩ := hall s hs
        exact ⟨by rw [g1, h1], by rw [g2, h2], by rw [g3, h3]⟩
      · rw [h1]
        exact hlen

theorem minted_checkShards {F : Type} [Field F] [DecidableEq F] {d : Dealer F}
    {qs : List (Shard F)} (hne : qs ≠ [])
    (hmint : ∀ Q ∈ qs, ∃ rng fuel, d.next_shard rng fuel = some Q)
    (hcount : qs.length = d.threshold) :
    checkShards qs = some (d.threshold, d.polys.length, d.secret_len) := by
  refine checkShards_intro hne hcount ?_
  intro Q hQ
  obtain ⟨rng, fuel, hQs⟩ := hmint Q hQ
  obtain ⟨-, h1, h2, h3⟩ := next_shard_fields hQs
  exact ⟨h1, by rw [h3]; simp, h2⟩

theorem minted_fit {F : Type} [Field F] [DecidableEq F] {B : GfBytes F} {t : ℕ}
    {S : List Byte} {coeffs : ℕ → ℕ → F} {d : Dealer F} {qs : List (Shard F)}
    (hd : Dealer.new t S B coeffs = some d) (hlen : qs.length = t)
    (hmint : ∀ Q ∈ qs, ∃ rng fuel, d.next_shard rng fuel = some Q)
    (hx : (qs.map Shard.x).Nodup) (i : ℕ) (hi : i < d.polys.length) :
    (shardPoints qs i).length = (d.polys.getD i []).length ∧
      d.polys.getD i [] ≠ [] ∧
      ((shardPoints qs i).map Prod.fst).Nodup ∧
      (∀ j : Fin (shardPoints qs i).length,
        ((shardPoints qs i).get j).2 =
          GfPoly.evaluate (d.polys.getD i []) (((shardPoints qs i).get j).1)) ∧
      d.threshold - 1 = (d.polys.getD i []).length - 1 := by
  obtain ⟨ht0, hth, hsl, -⟩ := new_fields hd
  have hpmem : d.polys.getD i [] ∈ d.polys := by
    rw [List.getD_eq_getElem _ _ hi]
    exact List.getElem_mem _
  have hplen : (d.polys.getD i []).length = t := new_poly_lengths hd _ hpmem
  refine ⟨?_, ?_, ?_, ?_, ?_⟩
  · unfold shardPoints
    rw [List.length_map, hlen, hplen]
  · intro hnil
    rw [hnil] at hplen
    simp at hplen
    omega
  · unfold shardPoints
    rw [List.map_map]
    exact hx
  · intro j
    have hj : (j : ℕ) < qs.length := by
      have hjlt := j.isLt
      unfold shardPoints at hjlt
      simpa using hjlt
    have hQmem : qs.get ⟨j, hj⟩ ∈ qs := List.get_mem qs _ hj
    obtain ⟨rng, fuel, hQs⟩ := hmint _ hQmem
    obtain ⟨-, -, -, hys⟩ := next_shard_fields hQs
    have hget : (shardPoints qs i).get j =
        ((qs.get ⟨j, hj⟩).x, (qs.get ⟨j, hj⟩).ys.getD i 0) := by
      unfold shardPoints
      simp [List.get_eq_getElem, List.getElem_map]
    rw [hget]
    show (qs.get ⟨j, hj⟩).ys.getD i 0 = GfPoly.evaluate (d.polys.getD i []) (qs.get ⟨j, hj⟩).x
    rw [hys, getD_map _ _ i hi 0 []]
  · rw [hplen, hth]

theorem minted_lagrange_constant {F : Type} [Field F] [DecidableEq F] {B : GfBytes F}
    {t : ℕ} {S : List Byte} {coeffs : ℕ → ℕ → F} {d : Dealer F} {qs : List (Shard F)}
    (hd : Dealer.new t S B coeffs = some d) (hlen : qs.length = t)
    (hmint : ∀ Q ∈ qs, ∃ rng fuel, d.next_shard rng fuel = some Q)
    (hx : (qs.map Shard.x).Nodup) (i : ℕ) (hi : i < d.polys.length) :
    GfPoly.lagrange_constant (d.threshold - 1) (shardPoints qs i) =
      some (GfPoly.constant (d.polys.getD i [])) := by
  obtain ⟨h1, h2, h3, h4, h5⟩ := minted_fit hd hlen hmint hx i hi
  rw [h5]
  exact lagrange_constant_correct _ _ h1 h2 h3 h4

theorem minted_lagrange {F : Type} [Field F] [DecidableEq F] {B : GfBytes F}
    {t : ℕ} {S : List Byte} {coeffs : ℕ → ℕ → F} {d : Dealer F} {qs : List (Shard F)}
    (hd : Dealer.new t S B coeffs = some d) (hlen : qs.length = t)
    (hmint : ∀ Q ∈ qs, ∃ rng fuel, d.next_shard rng fuel = some Q)
    (hx : (qs.map Shard.x).Nodup) (i : ℕ) (hi : i < d.polys.length) :
    GfPoly.lagrange (d.threshold - 1) (shardPoints qs i) = some (d.polys.getD i []) := by
  obtain ⟨h1, h2, h3, h4, h5⟩ := minted_fit hd hlen hmint hx i hi
  rw [h5]
  exact lagrange_correct _ _ h1 h2 h3 h4

/-- C1: for every threshold `t` in `[1, 32]` and every byte string `S`, if
`Q₁ … Q_t` are `t` shards minted by `next_shard` from `Dealer::new(t, S)`
with pairwise-distinct `x` values, then `recover_secret [Q₁ … Q_t]`
returns `S`. -/
theorem recover_secret_of_minted {F : Type} [Field F] [DecidableEq F] (B : GfBytes F)
    (hB : B.Lawful) (t : ℕ) (ht1 : 1 ≤ t) (ht32 : t ≤ 32) (S : List Byte)
    (coeffs : ℕ → ℕ → F) (d : Dealer F) (hd : Dealer.new t S B coeffs = some d)
    (qs : List (Shard F)) (hlen : qs.length = t)
    (hmint : ∀ Q ∈ qs, ∃ rng fuel, d.next_shard rng fuel = some Q)
    (hx : (qs.map Shard.x).Nodup) :
    recover_secret B qs = some S := by
  obtain ⟨ht0, hth, hsl, -⟩ := new_fields hd
  have hne : qs ≠ [] := by
    intro h
    rw [h] at hlen
    simp at hlen
    omega
  have hchk := minted_checkShards hne hmint (by rw [hlen, hth])
  rw [recover_secret_eq B qs _ _ _ hchk]
  rw [takeCollect_of_forall B
    (fun i => GfPoly.lagrange_constant (d.threshold - 1) (shardPoints qs i))
    (fun i => GfPoly.constant (d.polys.getD i []))
    (List.range d.polys.length) d.secret_len
    (fun i hi => minted_lagrange_constant hd hlen hmint hx i (List.mem_range.mp hi))]
  rw [range_map_getD d.polys [] GfPoly.constant, new_constants hd, hsl,
    secret_chunks B hB S]

theorem recover_secret_of_minted_witness :
    Dealer.new 1 [7] ratBytes (fun _ _ => 0) = some ⟨[[ratBytes.from_bytes [7]]], 1, 1⟩ ∧
      Dealer.next_shard ⟨[[ratBytes.from_bytes [7]]], 1, 1⟩ (fun _ => 1) 1 =
        some ⟨1, [GfPoly.evaluate [ratBytes.from_bytes [7]] 1], 1, 1⟩ ∧
      recover_secret ratBytes
        [⟨1, [GfPoly.evaluate [ratBytes.from_bytes [7]] 1], 1, 1⟩] = some [7] := by
  refine ⟨rfl, rfl, ?_⟩
  refine recover_secret_of_minted ratBytes ratBytes_lawful 1 (le_refl 1) (by omega) [7]
    (fun _ _ => 0) ⟨[[ratBytes.from_bytes [7]]], 1, 1⟩ rfl
    [⟨1, [GfPoly.evaluate [ratBytes.from_bytes [7]] 1], 1, 1⟩] rfl ?_ (by simp)
  intro Q hQ
  rw [List.mem_singleton] at hQ
  subst hQ
  exact ⟨fun _ => 1, 1, rfl⟩

/-- C4: for every threshold `t` in `[2, 8]` and every byte string `S`, if
`shards` is a list of `t` shards freshly minted by `next_shard` from
`d = Dealer::new(t, S)` with pairwise-distinct `x` values, then
`Dealer::recover(shards)` reproduces `d.polys` as full coefficient vectors,
not merely in their constant terms. -/
theorem dealer_recover_of_minted {F : Type} [Field F] [DecidableEq F] (B : GfBytes F)
    (t : ℕ) (ht2 : 2 ≤ t) (ht8 : t ≤ 8) (S : List Byte)
    (coeffs : ℕ → ℕ → F) (d : Dealer F) (hd : Dealer.new t S B coeffs = some d)
    (qs : List (Shard F)) (hlen : qs.length = t)
    (hmint : ∀ Q ∈ qs, ∃ rng fuel, d.next_shard rng fuel = some Q)
    (hx : (qs.map Shard.x).Nodup) :
    ∃ e, Dealer.recover qs = some e ∧ e.polys = d.polys := by
  obtain ⟨ht0, hth, hsl, -⟩ := new_fields hd
  have hne : qs ≠ [] := by
    intro h
    rw [h] at hlen
    simp at hlen
    omega
  have hchk := minted_checkShards hne hmint (by rw [hlen, hth])
  refine ⟨⟨d.polys, d.secret_len, d.threshold⟩, ?_, rfl⟩
  rw [dealer_recover_eq qs _ _ _ hchk]
  rw [collectSome_of_forall
    (fun i => GfPoly.lagrange (d.threshold - 1) (shardPoints qs i))
    (fun i => d.polys.getD i [])
    (List.range d.polys.length)
    (fun i hi => minted_lagrange hd hlen hmint hx i (List.mem_range.mp hi))]
  show some _ = some _
  rw [range_map_getD_self d.polys []]

theorem dealer_recover_of_minted_witness :
    Dealer.new 2 [9] (anyBytes (Fin 7)) (fun _ i => if i = 0 then 0 else 1) =
        some ⟨[[0, 1]], 1, 2⟩ ∧
      (⟨[[0, 1]], 1, 2⟩ : Dealer (Fin 7)).next_shard (fun _ => 3) 1 =
        some ⟨3, [3], 1, 2⟩ ∧
      (⟨[[0, 1]], 1, 2⟩ : Dealer (Fin 7)).next_shard (fun _ => 5) 1 =
        some ⟨5, [5], 1, 2⟩ ∧
      ∃ e, Dealer.recover (F := Fin 7) [⟨3, [3], 1, 2⟩, ⟨5, [5], 1, 2⟩] = some e ∧
        e.polys = [[0, 1]] := by
  refine ⟨by decide, by decide, by decide, ?_⟩
  refine dealer_recover_of_minted (anyBytes (Fin 7)) 2 (by omega) (by omega) [9]
    (fun _ i => if i = 0 then 0 else 1) ⟨[[0, 1]], 1, 2⟩ (by decide)
    [⟨3, [3], 1, 2⟩, ⟨5, [5], 1, 2⟩] rfl ?_ (by decide)
  intro Q hQ
  rcases List.mem_cons.mp hQ with rfl | hQ'
  · exact ⟨fun _ => 3, 1, by decide⟩
  · rw [List.mem_singleton] at hQ'
    subst hQ'
    exact ⟨fun _ => 5, 1, by decide⟩

/-! ## Duplicate x-values (claim C6) -/

theorem lagrange_constant_some {F : Type} [Field F] [DecidableEq F] {degree : ℕ}
    {pts : List (F × F)} {c : F}
    (h : GfPoly.lagrange_constant degree pts = some c) :
    pts.length = degree + 1 ∧ (pts.map Prod.fst).Nodup ∧ c = lagConstFormula pts := by
  unfold GfPoly.lagrange_constant at h
  by_cases hC : pts.length = degree + 1 ∧ (pts.map Prod.fst).Nodup
  · rw [if_pos hC] at h
    exact ⟨hC.1, hC.2, (Option.some.inj h).symm⟩
  · rw [if_neg hC] at h
    exact absurd h (by simp)

theorem lagConstFormula_perm {F : Type} [Field F] (pts pts' : List (F × F))
    (hperm : pts.Perm pts') (hnd : (pts.map Prod.fst).Nodup) :
    lagConstFormula pts' = lagConstFormula pts := by
  have hnd' : (pts'.map Prod.fst).Nodup := ((hperm.map Prod.fst).nodup_iff).mp hnd
  have hvs := injOn_fst_get pts hnd
  have hvs' := injOn_fst_get pts' hnd'
  have hlen := hperm.length_eq
  have hinterp : Lagrange.interpolate Finset.univ
      (fun i : Fin pts.length => (pts.get i).1) (fun i => (pts.get i).2) =
    Lagrange.interpolate Finset.univ
      (fun i : Fin pts'.length => (pts'.get i).1) (fun i => (pts'.get i).2) := by
    refine Lagrange.eq_interpolate_of_eval_eq _ hvs' ?_ ?_
    · have hdeg := Lagrange.degree_interpolate_lt
        (fun i : Fin pts.length => (pts.get i).2) hvs
      have hcard : (Finset.univ : Finset (Fin pts.length)).card =
          (Finset.univ : Finset (Fin pts'.length)).card := by
        simp [hlen]
      rw [hcard] at hdeg
      exact hdeg
    · intro i _
      have hmem : pts'.get i ∈ pts := hperm.mem_iff.mpr (List.get_mem pts' _ i.isLt)
      obtain ⟨j, hj⟩ := List.mem_iff_get.mp hmem
      have heval := Lagrange.eval_interpolate_at_node
        (fun k : Fin pts.length => (pts.get k).2) hvs (Finset.mem_univ j)
      rw [show (pts'.get i).1 = (pts.get j).1 from (congrArg Prod.fst hj).symm,
        show (pts'.get i).2 = (pts.get j).2 from (congrArg Prod.snd hj).symm]
      exact heval
  rw [lagConstFormula_eq_eval pts, lagConstFormula_eq_eval pts', ← hinterp]

theorem lagrange_constant_perm {F : Type} [Field F] [DecidableEq F] (degree : ℕ)
    (pts pts' : List (F × F)) (hperm : pts.Perm pts') :
    GfPoly.lagrange_constant degree pts' = GfPoly.lagrange_constant degree pts := by
  unfold GfPoly.lagrange_constant
  by_cases hC : pts.length = degree + 1 ∧ (pts.map Prod.fst).Nodup
  · have hC' : pts'.length = degree + 1 ∧ (pts'.map Prod.fst).Nodup :=
      ⟨by rw [← hperm.length_eq]; exact hC.1, ((hperm.map Prod.fst).nodup_iff).mp hC.2⟩
    rw [if_pos hC, if_pos hC', lagConstFormula_perm pts pts' hperm hC.2]
  · have hC' : ¬ (pts'.length = degree + 1 ∧ (pts'.map Prod.fst).Nodup) := by
      intro hc'
      exact hC ⟨by rw [hperm.length_eq]; exact hc'.1,
        ((hperm.map Prod.fst).nodup_iff).mpr hc'.2⟩
    rw [if_neg hC, if_neg hC']

/-- C8: `recover_secret` is invariant under reordering of its input: on any
shard list on which it succeeds, every permutation of the list yields the
same result. -/
theorem recover_secret_perm {F : Type} [Field F] [DecidableEq F] (B : GfBytes F)
    (shards shards' : List (Shard F)) (v : List Byte)
    (h : recover_secret B shards = some v) (hperm : shards.Perm shards') :
    recover_secret B shards' = some v := by
  cases hchk : checkShards shards with
  | none =>
    rw [(recover_none_of_check B shards hchk).2] at h
    exact absurd h (by simp)
  | some triple =>
    obtain ⟨t, m, L⟩ := triple
    obtain ⟨hne, hlen, hall⟩ := checkShards_some hchk
    have hne' : shards' ≠ [] := by
      intro hx0
      rw [hx0] at hperm
      have hl := hperm.length_eq
      simp at hl
      exact hne hl
    have hchk' : checkShards shards' = some (t, m, L) :=
      checkShards_intro hne' (by rw [← hperm.length_eq]; exact hlen)
        (fun s hs => hall s (hperm.mem_iff.mpr hs))
    rw [recover_secret_eq B shards t m L hchk] at h
    rw [recover_secret_eq B shards' t m L hchk']
    rw [takeCollect_congr B
      (fun i => GfPoly.lagrange_constant (t - 1) (shardPoints shards' i))
      (fun i => GfPoly.lagrange_constant (t - 1) (shardPoints shards i))
      (List.range m) L
      (fun i _ => lagrange_constant_perm (t - 1) _ _ (hperm.map _))]
    exact h

theorem recover_secret_perm_witness :
    recover_secret (anyBytes (Fin 7)) [⟨3, [3], 1, 2⟩, ⟨5, [5], 1, 2⟩] = some [] ∧
    ([⟨3, [3], 1, 2⟩, ⟨5, [5], 1, 2⟩] : List (Shard (Fin 7))).Perm
      [⟨5, [5], 1, 2⟩, ⟨3, [3], 1, 2⟩] ∧
    recover_secret (anyBytes (Fin 7)) [⟨5, [5], 1, 2⟩, ⟨3, [3], 1, 2⟩] = some [] :=
  ⟨by decide, by decide,
    recover_secret_perm (anyBytes (Fin 7)) [⟨3, [3], 1, 2⟩, ⟨5, [5], 1, 2⟩]
      [⟨5, [5], 1, 2⟩, ⟨3, [3], 1, 2⟩] [] (by decide) (by decide)⟩

end Paperback
